import Mathlib

/-!
Shallow embedding of the core of the rustos (xv6-rust) kernel, restricted to
the parts needed by the buffer cache, inode cache, write-ahead log, pipe,
console, virtio-disk and process-kill claims.  Each definition is translated
from the corresponding Rust function; machine integers are modelled as `Nat`
with explicit wrap-arounds (`% 2 ^ 32`, `% 2 ^ 16`) at the points where the
source relies on wrapping, and fallible or panicking code becomes `Option` /
explicit result inductives.
-/

set_option autoImplicit false

namespace RustOS

/-! ## Constants

The repository declares `mod consts;` but the consts module itself is not
under src, so its numeric values are modelled from the spec where needed. -/

/-- Modelled from the spec: the consts module (missing from src) fixes the
block size at compile time; the virtio layer computes `sector = blockno *
(BSIZE / 512)`, so it is a multiple of 512.  We use the xv6 value 1024. -/
def BSIZE : Nat := 1024

/-- Modelled from the spec: number of direct block slots in an on-disk inode
(the spec records N_direct direct block numbers plus one indirect block).
xv6 value. -/
def NDIRECT : Nat := 12

/-- Modelled from the spec: number of block numbers held by the singly
indirect block, i.e. BSIZE divided by the width of a block number (4). -/
def NINDIRECT : Nat := BSIZE / 4

/-- Modelled from the spec: the maximum file size in bytes, i.e. the number
of mappable blocks times the block size. -/
def MAX_FILE_SIZE : Nat := (NDIRECT + NINDIRECT) * BSIZE

/-- Range of a `u32`, used to model `checked_add` overflow and `Wrapping`
counters. -/
def U32 : Nat := 2 ^ 32

/-- Range of a `u16`, used for the virtio avail/used ring indices. -/
def U16 : Nat := 2 ^ 16

/-- Range of a `usize` (the target is 64-bit RISC-V), used for the console
ring indices. -/
def USIZE : Nat := 2 ^ 64

/-! ## C10 — Buf::pin / Buf::unpin (fs/bio.rs)

`pin` increments the reference count behind `rc_ptr`; `unpin` panics when the
count is 1 or less and decrements it otherwise.  The count is modelled as a
plain `Nat` and the panic as `none`. -/

/-- Embedding of `Buf::pin`: `*self.rc_ptr = rc + 1`. -/
def Buf.pin (rc : Nat) : Nat := rc + 1

/-- Embedding of `Buf::unpin`: panics (`none`) when `rc <= 1`, otherwise
stores `rc - 1`. -/
def Buf.unpin (rc : Nat) : Option Nat :=
  if rc ≤ 1 then none else some (rc - 1)

/-! ## C9 — ProcManager::kill (process/mod.rs)

The process table is modelled as a list of the fields `kill` inspects: the
pid, the scheduling state and the killed flag.  `kill` walks the table in
order, and on the first entry whose pid matches sets the killed flag, flips
SLEEPING to RUNNABLE and returns `Ok(())`; if no entry matches it returns
`Err(())` (`none`). -/

inductive ProcState
  | UNUSED
  | SLEEPING
  | RUNNABLE
  | RUNNING
  | ALLOCATED
  | ZOMBIE
deriving DecidableEq, Repr

structure ProcEntry where
  pid : Nat
  state : ProcState
  killed : Bool
deriving DecidableEq, Repr

/-- Embedding of `ProcManager::kill`: scan the table for the first PCB whose
pid matches, set its killed flag, flip SLEEPING to RUNNABLE, succeed;
otherwise return an error (`none`) leaving the table unchanged. -/
def ProcManager.kill (pid : Nat) : List ProcEntry → Option (List ProcEntry)
  | [] => none
  | p :: rest =>
    if p.pid = pid then
      some ({ p with
              killed := true,
              state := if p.state = ProcState.SLEEPING
                       then ProcState.RUNNABLE else p.state } :: rest)
    else
      (ProcManager.kill pid rest).map (p :: ·)

/-! ## C3 — SpinLock<Log>::begin_op (fs/log.rs)

Only the fields `begin_op` touches are modelled.  One iteration of its loop
either sleeps on the log channel (`none`) — exactly when the log is
committing or the pessimistic space formula exceeds the log size — or
increments `outstanding` and returns.  `MAXOPBLOCKS` and `LOGSIZE` are left
as parameters; the claim is about the shape of the guard, not their
values. -/

structure LogOpSt where
  outstanding : Nat
  committing : Bool
  lhLen : Nat
deriving DecidableEq, Repr

/-- Embedding of the body of `begin_op`: the guard
`committing || 1 + lh.len + (outstanding+1)*MAXOPBLOCKS > LOGSIZE` leads to a
sleep (`none`); otherwise `outstanding` is incremented and the loop exits. -/
def beginOpStep (maxOpBlocks logSize : Nat) (g : LogOpSt) : Option LogOpSt :=
  if g.committing = true ∨
      1 + g.lhLen + (g.outstanding + 1) * maxOpBlocks > logSize then
    none
  else
    some { g with outstanding := g.outstanding + 1 }

/-! ## C2 — Bcache::bget (fs/bio.rs) and InodeCache::get (fs/inode.rs)

For C2 (and C5) the buffer cache control state is the LRU list of
`BufCtrl` records in list order head → tail; `find_cached` walks it from the
head and bumps the first `(dev, blockno)` match, `recycle` walks it from the
tail and repurposes the first zero-refcount entry.  `bget` panics
("no usable buffer") when both fail.

The inode cache is a table of `InodeMeta` records; `get` scans for a live
match and bumps it, else claims the first free (refs = 0) slot, and panics
("inode: not enough") when there is neither.  The single Rust pass that
remembers the first free slot while scanning for a match is split into the
two scans `icacheFind` / `icacheClaim`; a match anywhere wins over an
earlier free slot in both formulations. -/

structure BufCtrl where
  dev : Nat
  blockno : Nat
  refcnt : Nat
deriving DecidableEq, Repr

/-- Embedding of `BufLru::find_cached`: walk from the head, bump the refcount
of the first entry matching `(dev, blockno)` (regardless of its refcount). -/
def findCached (dev blockno : Nat) : List BufCtrl → Option (List BufCtrl)
  | [] => none
  | b :: rest =>
    if b.dev = dev ∧ b.blockno = blockno then
      some ({ b with refcnt := b.refcnt + 1 } :: rest)
    else
      (findCached dev blockno rest).map (b :: ·)

/-- Embedding of `BufLru::recycle`: walk from the tail, repurpose the first
zero-refcount entry with the new `(dev, blockno)` and refcount 1.  The
recursion tries the tail part of the list first, which picks the entry
closest to the tail. -/
def recycle (dev blockno : Nat) : List BufCtrl → Option (List BufCtrl)
  | [] => none
  | b :: rest =>
    match recycle dev blockno rest with
    | some rest2 => some (b :: rest2)
    | none =>
      if b.refcnt = 0 then
        some ({ dev := dev, blockno := blockno, refcnt := 1 } :: rest)
      else
        none

inductive BgetResult
  | hit (s : List BufCtrl)
  | fresh (s : List BufCtrl)
  | panicNoBuffer
deriving DecidableEq, Repr

/-- Embedding of `Bcache::bget`: try `find_cached`, then `recycle`, and
otherwise `panic!("no usable buffer")`. -/
def bget (dev blockno : Nat) (s : List BufCtrl) : BgetResult :=
  match findCached dev blockno s with
  | some s2 => BgetResult.hit s2
  | none =>
    match recycle dev blockno s with
    | some s2 => BgetResult.fresh s2
    | none => BgetResult.panicNoBuffer

structure InodeMeta where
  dev : Nat
  inum : Nat
  refs : Nat
deriving DecidableEq, Repr

/-- Embedding of the matching scan in `InodeCache::get`: bump the first entry
with the same `(dev, inum)` and a positive refcount. -/
def icacheFind (dev inum : Nat) : List InodeMeta → Option (List InodeMeta)
  | [] => none
  | m :: rest =>
    if m.inum = inum ∧ m.refs > 0 ∧ m.dev = dev then
      some ({ m with refs := m.refs + 1 } :: rest)
    else
      (icacheFind dev inum rest).map (m :: ·)

/-- Embedding of the free-slot claim in `InodeCache::get`: take the first
entry with `refs = 0` and fill in the new `(dev, inum)` with refcount 1. -/
def icacheClaim (dev inum : Nat) : List InodeMeta → Option (List InodeMeta)
  | [] => none
  | m :: rest =>
    if m.refs = 0 then
      some ({ dev := dev, inum := inum, refs := 1 } :: rest)
    else
      (icacheClaim dev inum rest).map (m :: ·)

inductive IGetResult
  | found (s : List InodeMeta)
  | fresh (s : List InodeMeta)
  | panicNotEnough
deriving DecidableEq, Repr

/-- Embedding of `InodeCache::get`: a live match is bumped; otherwise the
first free slot is claimed; otherwise `panic!("inode: not enough")`. -/
def InodeCache.get (dev inum : Nat) (s : List InodeMeta) : IGetResult :=
  match icacheFind dev inum s with
  | some s2 => IGetResult.found s2
  | none =>
    match icacheClaim dev inum s with
    | some s2 => IGetResult.fresh s2
    | none => IGetResult.panicNotEnough

/-! ## C4 — InodeData::try_iwrite (fs/inode.rs)

`try_iwrite` rejects a write whose offset lies beyond the current file size,
whose `offset + count` overflows a `u32`, or whose end exceeds
MAX_FILE_SIZE, before entering the block loop; otherwise it copies block by
block, logging each written block, breaking out early when a `copy_in`
fails, and finally extends the inode size to the written end when that grew.

The embedding returns the pair of the `Result` (`none` for `Err(())`,
`some (newSize, bytesWritten)` for `Ok`) and the list of logical block
numbers passed to `LOG.write`, so that the error paths are visibly free of
block writes.  `copy_in` outcomes are a parameter `copyOk`, indexed by the
loop iteration. -/

/-- Embedding of the `while count > 0` loop of `try_iwrite` from its second
iteration on, where `write_count = min(BSIZE, count)`.  Returns the value of
`count` at loop exit together with the logical block numbers logged. -/
def iwriteTail (copyOk : Nat → Bool) (blockBase count iter : Nat) :
    Nat × List Nat :=
  if h : 0 < count then
    if copyOk iter then
      let wc := min BSIZE count
      let r := iwriteTail copyOk (blockBase + 1) (count - wc) (iter + 1)
      (r.1, blockBase :: r.2)
    else
      (count, [])
  else
    (0, [])
termination_by count
decreasing_by
  simp only [BSIZE]
  omega

/-- Embedding of the whole block loop of `try_iwrite`: the first iteration
uses `write_count = min(BSIZE - offset % BSIZE, count)`, each later one
`min(BSIZE, count)`. -/
def iwriteLoop (copyOk : Nat → Bool) (offset count : Nat) : Nat × List Nat :=
  let blockBase := offset / BSIZE
  let blockOffset := offset % BSIZE
  if 0 < count then
    if copyOk 0 then
      let wc := min (BSIZE - blockOffset) count
      let r := iwriteTail copyOk (blockBase + 1) (count - wc) 1
      (r.1, blockBase :: r.2)
    else
      (count, [])
  else
    (0, [])

/-- Embedding of `try_iwrite` on an inode of current size `size`.  `offset`
and `count` are `u32` values; `offset.checked_add(count)` failing is the
`offset + count ≥ U32` branch. -/
def tryIwrite (size offset count : Nat) (copyOk : Nat → Bool) :
    Option (Nat × Nat) × List Nat :=
  if offset > size then (none, [])
  else if U32 ≤ offset + count then (none, [])
  else if offset + count > MAX_FILE_SIZE then (none, [])
  else
    let e := offset + count
    let r := iwriteLoop copyOk offset count
    let sz := e - r.1
    let newSize := if sz > size then sz else size
    (some (newSize, sz - offset), r.2)

/-! ## C6 — Pipe::write (fs/file/pipe.rs)

The pipe state is the spinlocked `PipeInner`; the two counters are
`Wrapping<u32>` and the ring index is `write_cnt % PIPESIZE`.  One iteration
of the `while write_count < count` loop is embedded as a step function: it
observes the distance still to write (`remaining = count - write_count`),
the killed flag of the caller and the outcome of this iteration's `copy_in`.
The pipe capacity `PIPESIZE` is left as a parameter `C` (the consts module
is not under src; the spec only fixes it at compile time). -/

structure PipeSt where
  readOpen : Bool
  writeOpen : Bool
  readCnt : Nat
  writeCnt : Nat
  data : Nat → Nat

/-- Number of queued bytes `(write_cnt - read_cnt).0`, with the wrapping-u32
subtraction made explicit. -/
def pipeQueued (s : PipeSt) : Nat := (s.writeCnt + U32 - s.readCnt) % U32

inductive PipeWriteStep
  | doneAll
  | errClosed
  | sleepFull
  | breakCopy
  | wrote (s : PipeSt)

/-- Embedding of one iteration of the loop in `Pipe::write`: finished when
nothing remains; `Err(())` when the read side is closed or the caller is
killed; wake readers and sleep on `&write_cnt` when the ring is full
(`write_cnt == read_cnt + C` in wrapping arithmetic); break out of the loop
when `copy_in` fails; otherwise store one byte at `write_cnt % C` and
advance `write_cnt`. -/
def pipeWriteStep (C : Nat) (s : PipeSt) (killed : Bool) (remaining : Nat)
    (copyOk : Bool) (byte : Nat) : PipeWriteStep :=
  if remaining = 0 then
    PipeWriteStep.doneAll
  else if s.readOpen = false ∨ killed = true then
    PipeWriteStep.errClosed
  else if s.writeCnt = (s.readCnt + C) % U32 then
    PipeWriteStep.sleepFull
  else if copyOk = false then
    PipeWriteStep.breakCopy
  else
    PipeWriteStep.wrote
      { s with
        data := Function.update s.data (s.writeCnt % C) byte,
        writeCnt := (s.writeCnt + 1) % U32 }

/-- Embedding of the per-byte body of `Pipe::read` (used for the
full-pipe/one-reader scenario): the byte at `read_cnt % C` is consumed and
`read_cnt` advances by one. -/
def pipeReadOne (s : PipeSt) : PipeSt :=
  { s with readCnt := (s.readCnt + 1) % U32 }

/-! ## C7 — console::read (driver/console.rs)

The console state is the ring `buf` with the monotonic `Wrapping<usize>`
indices `ri` (read) and `wi` (write).  `read` is embedded as a recursion on
`left`; reaching `ri == wi` with the killed flag set returns `Err(())`, and
reaching it unkilled is the suspension point (the process would sleep on
`&ri`), reported as `blocked`.  `done ret copied ri` carries the returned
byte count `tot - left`, the list of bytes copied out in order, and the
final read index.  `CONSOLE_BUF` is a parameter `CB`. -/

/-- Modelled from the spec: console control byte for EOF, ctrl-D (EOT).  The
consts module declaring it is not under src. -/
def CTRL_EOT : Nat := 4

/-- Modelled from the spec: the newline byte (line feed). -/
def CTRL_LF : Nat := 10

inductive CRes
  | err
  | blocked (ret : Nat) (copied : List Nat) (ri : Nat)
  | done (ret : Nat) (copied : List Nat) (ri : Nat)
deriving DecidableEq, Repr

/-- Embedding of `console::read`.  Per iteration: wait (or fail when killed)
while `ri == wi`; read `c = buf[ri % CB]` and advance `ri`; on EOT, if some
byte was already copied this call (`left < tot`) push the EOT back by
rewinding `ri`, then stop; copy the byte out (stopping on a failed copy);
stop after copying a newline.  The return value is `tot - left`. -/
def consoleRead (CB : Nat) (buf : Nat → Nat) (killed : Bool) (wi tot : Nat)
    (copyOk : Nat → Bool) : Nat → Nat → List Nat → CRes
  | ri, 0, copied => CRes.done tot copied ri
  | ri, left + 1, copied =>
    if ri = wi then
      if killed then CRes.err else CRes.blocked (tot - (left + 1)) copied ri
    else
      let c := buf (ri % CB)
      let ri2 := (ri + 1) % USIZE
      if c = CTRL_EOT then
        if left + 1 < tot then
          CRes.done (tot - (left + 1)) copied ((ri2 + USIZE - 1) % USIZE)
        else
          CRes.done (tot - (left + 1)) copied ri2
      else if copyOk copied.length = false then
        CRes.done (tot - (left + 1)) copied ri2
      else
        if c = CTRL_LF then
          CRes.done (tot - left) (copied ++ [c]) ri2
        else
          consoleRead CB buf killed wi tot copyOk ri2 left (copied ++ [c])

/-! ## C8 — SpinLock<Disk>::rw and Disk::intr (driver/virtio_disk.rs)

Only the queue-facing fields of `Disk` are modelled; the three MMIO pokes
and the fences carry no state.  Addresses of kernel objects (`&ops[idx0]`,
the buffer data, `&info[idx0].status`) are opaque parameters. -/

/-- Number of virtqueue descriptors (`NUM` in virtio_disk.rs). -/
def NUM : Nat := 8

def VRING_DESC_F_NEXT : Nat := 1
def VRING_DESC_F_WRITE : Nat := 2
def VIRTIO_BLK_T_IN : Nat := 0
def VIRTIO_BLK_T_OUT : Nat := 1

structure VQDesc where
  addr : Nat
  len : Nat
  flags : Nat
  next : Nat
deriving DecidableEq, Repr

structure DiskInfo where
  bufChannel : Option Nat
  status : Nat
  disk : Bool
deriving DecidableEq, Repr

structure VirtIOBlkReq where
  type_ : Nat
  reserved : Nat
  sector : Nat
deriving DecidableEq, Repr

structure Disk where
  desc : Nat → VQDesc
  availRing : Nat → Nat
  availIdx : Nat
  usedRing : Nat → Nat
  usedIdxDevice : Nat
  usedIdx : Nat
  info : Nat → DiskInfo
  ops : Nat → VirtIOBlkReq

/-- Embedding of the request-building part of `SpinLock<Disk>::rw`, after
`alloc3_desc` produced the three descriptor indices: fill the block request
header (`sector = blockno * (BSIZE / 512)`), chain descriptors
idx0 → idx1 → idx2, mark the data descriptor device-writable exactly for
reads, point the one-byte status descriptor at the 0xff-initialised status,
record the buffer address as wake channel, publish idx0 in the avail ring
and bump the (u16) avail index. -/
def diskRw (d : Disk) (idx0 idx1 idx2 blockno : Nat) (writing : Bool)
    (bufAddr hdrAddr statusAddr : Nat) : Disk :=
  let ops2 := Function.update d.ops idx0
    { type_ := if writing then VIRTIO_BLK_T_OUT else VIRTIO_BLK_T_IN,
      reserved := 0,
      sector := blockno * (BSIZE / 512) }
  let desc2 := Function.update d.desc idx0
    { addr := hdrAddr, len := 16, flags := VRING_DESC_F_NEXT, next := idx1 }
  let desc3 := Function.update desc2 idx1
    { addr := bufAddr, len := BSIZE,
      flags := Nat.lor (if writing then 0 else VRING_DESC_F_WRITE)
                 VRING_DESC_F_NEXT,
      next := idx2 }
  let desc4 := Function.update desc3 idx2
    { addr := statusAddr, len := 1, flags := VRING_DESC_F_WRITE, next := 0 }
  let info2 := Function.update d.info idx0
    { bufChannel := some bufAddr, status := 0xff, disk := true }
  let avail2 := Function.update d.availRing (d.availIdx % NUM) idx0
  { d with
    ops := ops2,
    desc := desc4,
    info := info2,
    availRing := avail2,
    availIdx := (d.availIdx + 1) % U16 }

inductive IntrStep
  | idle
  | panicStatus
  | panicNoChannel
  | wake (d : Disk) (channel : Nat)

/-- Embedding of one iteration of the `while used_idx != used.idx` loop of
`Disk::intr`: panic when the completed request's status byte is non-zero,
otherwise clear the in-flight flag, wake the sleeper on the recorded buffer
channel, and advance the local (u16) used index. -/
def diskIntrStep (d : Disk) : IntrStep :=
  if d.usedIdx = d.usedIdxDevice then
    IntrStep.idle
  else
    let id := d.usedRing (d.usedIdx % NUM)
    if (d.info id).status ≠ 0 then
      IntrStep.panicStatus
    else
      match (d.info id).bufChannel with
      | none => IntrStep.panicNoChannel
      | some ch =>
        IntrStep.wake
          { d with
            info := Function.update d.info id { d.info id with disk := false },
            usedIdx := (d.usedIdx + 1) % U16 }
          ch

/-! ## C5 — buffer-cache release and reachable states (fs/bio.rs)

`brelse` (via `Buf::drop`) calls `move_if_no_ref`: decrement the refcount of
the entry at `index` and, when it reaches zero and the entry is not already
the list head, splice it out and reattach it at the head (splicing a head
entry to the head is the identity, so the guard is absorbed). -/

/-- Embedding of `BufLru::move_if_no_ref` on the LRU list in head → tail
order. -/
def moveIfNoRef (s : List BufCtrl) (i : Nat) : List BufCtrl :=
  match s.get? i with
  | none => s
  | some b =>
    let b2 : BufCtrl := { b with refcnt := b.refcnt - 1 }
    if b2.refcnt = 0 then
      b2 :: s.eraseIdx i
    else
      s.set i b2

/-- States of the buffer-cache LRU list reachable from boot (`binit` leaves
every slot with device 0, block 0, refcount 0) by `bget`/`bread` (same cache
effect) and releases of leased handles (whose slot therefore has a positive
refcount). -/
inductive BcacheReach : List BufCtrl → Prop
  | init (n : Nat) :
      BcacheReach (List.replicate n { dev := 0, blockno := 0, refcnt := 0 })
  | get {s s2 : List BufCtrl} {dev blockno : Nat} :
      BcacheReach s →
      (bget dev blockno s = BgetResult.hit s2 ∨
        bget dev blockno s = BgetResult.fresh s2) →
      BcacheReach s2
  | release {s : List BufCtrl} {i : Nat} {b : BufCtrl} :
      BcacheReach s → s.get? i = some b → 0 < b.refcnt →
      BcacheReach (moveIfNoRef s i)

/-- The per-pair view of the cache: the entries holding `(dev, blockno)` in
list order. -/
def pairEntries (dev blockno : Nat) (s : List BufCtrl) : List BufCtrl :=
  s.filter (fun b => b.dev == dev && b.blockno == blockno)

/-- Inductive invariant of the LRU list: for every `(dev, blockno)`, every
matching entry other than the first has refcount zero. -/
def liveDupFree (s : List BufCtrl) : Prop :=
  ∀ dev blockno : Nat, ∀ b ∈ (pairEntries dev blockno s).tail, b.refcnt = 0

/-! ## C1 — Log::commit and Log::recover (fs/log.rs)

The on-disk state relevant to the log protocol is split into the header
block at `start` (its `len` field and block-number array), the log slots
`start+1+i`, and the home blocks addressed by block number (the file system
never logs blocks inside the log area, so the three regions are disjoint by
construction).  Every `bwrite` issued by the commit/recovery code is one
`DOp`; a crash is modelled by applying only a prefix of the write list. -/

structure LogDisk where
  hdrLen : Nat
  hdrNos : List Nat
  log : Nat → Nat
  home : Nat → Nat

/-- One disk write issued by the log layer: a log-slot write (`write_log`),
the header write (`write_head`, the commit point), an install write copying
log slot `i` to home block `b` (`install_trans`), or the header-count zeroing
(`empty_head`). -/
inductive DOp
  | wlog (i v : Nat)
  | whead (n : Nat) (nos : List Nat)
  | winstall (i b : Nat)
  | wzero

def applyOp (d : LogDisk) : DOp → LogDisk
  | DOp.wlog i v => { d with log := Function.update d.log i v }
  | DOp.whead n nos => { d with hdrLen := n, hdrNos := nos }
  | DOp.winstall i b => { d with home := Function.update d.home b (d.log i) }
  | DOp.wzero => { d with hdrLen := 0 }

def applyOps (d : LogDisk) (l : List DOp) : LogDisk := l.foldl applyOp d

/-- The log-slot writes of `write_log`: slot `i` receives the cached (new)
content of home block `nos[i]`. -/
def wlogOps (cache : Nat → Nat) (l : List (Nat × Nat)) : List DOp :=
  l.map (fun p => DOp.wlog p.1 (cache p.2))

/-- The install writes of `install_trans`: home block `nos[i]` receives the
content of log slot `i`. -/
def winstallOps (l : List (Nat × Nat)) : List DOp :=
  l.map (fun p => DOp.winstall p.1 p.2)

/-- Embedding of `Log::commit` as the ordered list of disk writes it issues:
nothing when the header is empty, else `write_log`, then `write_head` (the
commit point), then `install_trans`, then `empty_head`.  `nos` is the
in-memory `lh.blocknos[0..lh.len]` and `cache` the in-memory buffer-cache
content of the logged home blocks. -/
def commitOps (nos : List Nat) (cache : Nat → Nat) : List DOp :=
  if nos.length = 0 then []
  else
    wlogOps cache nos.enum
    ++ [DOp.whead nos.length nos]
    ++ winstallOps nos.enum
    ++ [DOp.wzero]

/-- Embedding of `Log::recover`: read the on-disk header; when its count is
positive, replay `install_trans` from the on-disk header and zero the header
count; otherwise do nothing. -/
def recover (d : LogDisk) : LogDisk :=
  if 0 < d.hdrLen then
    let d2 := applyOps d (winstallOps (d.hdrNos.take d.hdrLen).enum)
    { d2 with hdrLen := 0 }
  else d

/-! ## Helper lemmas -/

theorem findCached_eq_none_iff (dev blockno : Nat) (s : List BufCtrl) :
    findCached dev blockno s = none ↔
      ∀ b ∈ s, ¬(b.dev = dev ∧ b.blockno = blockno) := by
  induction s with
  | nil => simp [findCached]
  | cons b rest ih =>
    by_cases h : b.dev = dev ∧ b.blockno = blockno
    · simp [findCached, h]
    · simp only [findCached, if_neg h]
      constructor
      · intro hmap x hx
        rcases List.mem_cons.mp hx with rfl | hx2
        · exact h
        · have hnone : findCached dev blockno rest = none := by
            cases hfc : findCached dev blockno rest with
            | none => rfl
            | some s2 => rw [hfc] at hmap; exact Option.noConfusion hmap
          exact ih.mp hnone x hx2
      · intro hall
        have hput : findCached dev blockno rest = none :=
          ih.mpr (fun x hx => hall x (List.mem_cons_of_mem b hx))
        rw [hput]
        rfl

theorem recycle_eq_none_iff (dev blockno : Nat) (s : List BufCtrl) :
    recycle dev blockno s = none ↔ ∀ b ∈ s, b.refcnt ≠ 0 := by
  induction s with
  | nil => simp [recycle]
  | cons b rest ih =>
    rw [recycle]
    rcases h : recycle dev blockno rest with _ | s2
    · simp only [h]
      by_cases hb : b.refcnt = 0
      · simp only [if_pos hb]
        constructor
        · intro habs; exact Option.noConfusion habs
        · intro hall
          exact absurd hb (hall b (List.mem_cons_self b rest))
      · simp only [if_neg hb]
        constructor
        · intro _ x hx
          rcases List.mem_cons.mp hx with rfl | hx2
          · exact hb
          · exact ih.mp h x hx2
        · intro _
          trivial
    · have hne : ¬(∀ x ∈ rest, x.refcnt ≠ 0) := by
        intro hall
        rw [← ih] at hall
        rw [hall] at h
        exact Option.noConfusion h
      simp only [h]
      constructor
      · intro habs; exact Option.noConfusion habs
      · intro hall
        exact absurd (fun x hx => hall x (List.mem_cons_of_mem b hx)) hne

theorem icacheFind_eq_none_iff (dev inum : Nat) (s : List InodeMeta) :
    icacheFind dev inum s = none ↔
      ∀ m ∈ s, ¬(m.inum = inum ∧ m.refs > 0 ∧ m.dev = dev) := by
  induction s with
  | nil => simp [icacheFind]
  | cons m rest ih =>
    by_cases h : m.inum = inum ∧ m.refs > 0 ∧ m.dev = dev
    · simp [icacheFind, h]
    · simp only [icacheFind, if_neg h]
      constructor
      · intro hmap x hx
        rcases List.mem_cons.mp hx with rfl | hx2
        · exact h
        · have hnone : icacheFind dev inum rest = none := by
            cases hfc : icacheFind dev inum rest with
            | none => rfl
            | some s2 => rw [hfc] at hmap; exact Option.noConfusion hmap
          exact ih.mp hnone x hx2
      · intro hall
        have hput : icacheFind dev inum rest = none :=
          ih.mpr (fun x hx => hall x (List.mem_cons_of_mem m hx))
        rw [hput]
        rfl

theorem icacheClaim_eq_none_iff (dev inum : Nat) (s : List InodeMeta) :
    icacheClaim dev inum s = none ↔ ∀ m ∈ s, m.refs ≠ 0 := by
  induction s with
  | nil => simp [icacheClaim]
  | cons m rest ih =>
    by_cases h : m.refs = 0
    · simp [icacheClaim, h]
    · simp [icacheClaim, h, ih]

/-! ## C10 -/

/-- C10: `Buf::unpin` is fatal whenever the reference count is at most 1, so
for a buffer whose reference count is at least 2, `pin` followed by `unpin`
restores the count and the count stays positive throughout. -/
theorem c10_pin_unpin (r : Nat) :
    (r ≤ 1 → Buf.unpin r = none) ∧
    (2 ≤ r →
      Buf.unpin (Buf.pin r) = some r ∧ 0 < r ∧ 0 < Buf.pin r) := by
  refine ⟨fun h => by simp [Buf.unpin, h], fun h => ⟨?_, by omega, by simp [Buf.pin]⟩⟩
  have : ¬(r + 1 ≤ 1) := by omega
  simp [Buf.unpin, Buf.pin, this]

theorem c10_pin_unpin_witness :
    Buf.unpin 1 = none ∧ Buf.unpin (Buf.pin 2) = some 2 :=
  ⟨(c10_pin_unpin 1).1 (by decide), ((c10_pin_unpin 2).2 (by decide)).1⟩

/-! ## C9 -/

/-- C9: `kill(pid)` marks the first PCB whose pid matches as killed, flips it
from SLEEPING to RUNNABLE (leaving any other state unchanged) and succeeds;
when no PCB holds the pid it returns an error and changes no process
state. -/
theorem c9_kill (pid : Nat) :
    (∀ s : List ProcEntry, (∀ p ∈ s, p.pid ≠ pid) →
      ProcManager.kill pid s = none) ∧
    (∀ (pre post : List ProcEntry) (m : ProcEntry),
      (∀ p ∈ pre, p.pid ≠ pid) → m.pid = pid →
      ProcManager.kill pid (pre ++ m :: post) =
        some (pre ++
          { m with
            killed := true,
            state := if m.state = ProcState.SLEEPING then ProcState.RUNNABLE
                     else m.state } :: post)) := by
  constructor
  · intro s hs
    induction s with
    | nil => rfl
    | cons p rest ih =>
      have hp : p.pid ≠ pid := hs p (List.mem_cons_self p rest)
      simp only [ProcManager.kill, if_neg hp,
        ih (fun q hq => hs q (List.mem_cons_of_mem p hq))]
      rfl
  · intro pre post m hpre hm
    induction pre with
    | nil => simp [ProcManager.kill, hm]
    | cons p rest ih =>
      have hp : p.pid ≠ pid := hpre p (List.mem_cons_self p rest)
      simp only [List.cons_append, ProcManager.kill, if_neg hp,
        List.append_eq,
        ih (fun q hq => hpre q (List.mem_cons_of_mem p hq))]
      rfl

theorem c9_kill_witness :
    ProcManager.kill 7 [⟨3, ProcState.RUNNING, false⟩,
        ⟨7, ProcState.SLEEPING, false⟩, ⟨9, ProcState.RUNNABLE, false⟩] =
      some [⟨3, ProcState.RUNNING, false⟩, ⟨7, ProcState.RUNNABLE, true⟩,
        ⟨9, ProcState.RUNNABLE, false⟩] ∧
    ProcManager.kill 4 [⟨3, ProcState.RUNNING, false⟩] = none := by
  constructor
  · have := (c9_kill 7).2 [⟨3, ProcState.RUNNING, false⟩]
      [⟨9, ProcState.RUNNABLE, false⟩] ⟨7, ProcState.SLEEPING, false⟩
      (by decide) rfl
    simpa using this
  · exact (c9_kill 4).1 _ (by decide)

/-! ## C3 -/

/-- C3: one pass of `begin_op` sleeps on the log channel exactly while the
log is committing or `1 + lh.len + (outstanding + 1) * MAXOPBLOCKS` exceeds
`LOGSIZE`; when it instead returns, it has incremented the outstanding count
by one and changed nothing else in the log state. -/
theorem c3_begin_op (maxOpBlocks logSize : Nat) (g : LogOpSt) :
    (beginOpStep maxOpBlocks logSize g = none ↔
      g.committing = true ∨
        1 + g.lhLen + (g.outstanding + 1) * maxOpBlocks > logSize) ∧
    (∀ g2, beginOpStep maxOpBlocks logSize g = some g2 →
      g2 = { g with outstanding := g.outstanding + 1 }) := by
  unfold beginOpStep
  split
  · next h => exact ⟨by simp [h], by intro g2 habs; exact Option.noConfusion habs⟩
  · next h =>
    constructor
    · simp [h]
    · intro g2 hg2
      exact (Option.some_inj.mp hg2).symm

theorem c3_begin_op_witness :
    beginOpStep 10 30 ⟨2, true, 0⟩ = none ∧
    beginOpStep 10 30 ⟨0, false, 5⟩ = some ⟨1, false, 5⟩ := by
  constructor
  · exact (c3_begin_op 10 30 ⟨2, true, 0⟩).1.mpr (Or.inl rfl)
  · have h : beginOpStep 10 30 ⟨0, false, 5⟩ = some ⟨1, false, 5⟩ := by decide
    have := (c3_begin_op 10 30 ⟨0, false, 5⟩).2 ⟨1, false, 5⟩ h
    rw [h]

/-! ## C2 (corrected) -/

/-- C2 counterexample: buffer-cache and inode-cache exhaustion is fatal, not
an error return — with every buffer refcount positive and no cached match,
`bget` reaches `panic!("no usable buffer")`, and with every inode slot busy
and no live match, `InodeCache::get` reaches `panic!("inode: not enough")`,
refuting the claim that these allocation points never halt the kernel. -/
theorem c2_exhaustion_counterexample :
    bget 1 1 [{ dev := 0, blockno := 0, refcnt := 1 }] =
      BgetResult.panicNoBuffer ∧
    InodeCache.get 0 5 [{ dev := 0, inum := 1, refs := 1 }] =
      IGetResult.panicNotEnough := by
  exact ⟨rfl, rfl⟩

/-- C2 (amended): when the buffer cache holds no matching entry and no
buffer with reference count zero, `bget` halts the kernel (panic "no usable
buffer"), and when the inode cache holds no live matching entry and no free
slot, `InodeCache::get` halts the kernel (panic "inode: not enough"); the
exhaustion is fatal rather than surfacing as a syscall failure. -/
theorem c2_exhaustion_fatal (s : List BufCtrl) (t : List InodeMeta)
    (bdev blockno idev inum : Nat)
    (hb : ∀ b ∈ s, ¬(b.dev = bdev ∧ b.blockno = blockno))
    (hr : ∀ b ∈ s, b.refcnt ≠ 0)
    (hi : ∀ m ∈ t, ¬(m.inum = inum ∧ m.refs > 0 ∧ m.dev = idev))
    (hf : ∀ m ∈ t, m.refs ≠ 0) :
    bget bdev blockno s = BgetResult.panicNoBuffer ∧
    InodeCache.get idev inum t = IGetResult.panicNotEnough := by
  constructor
  · unfold bget
    rw [(findCached_eq_none_iff bdev blockno s).mpr hb,
      (recycle_eq_none_iff bdev blockno s).mpr hr]
  · unfold InodeCache.get
    rw [(icacheFind_eq_none_iff idev inum t).mpr hi,
      (icacheClaim_eq_none_iff idev inum t).mpr hf]

theorem c2_exhaustion_fatal_witness :
    bget 2 7 [{ dev := 2, blockno := 3, refcnt := 1 },
        { dev := 2, blockno := 4, refcnt := 2 }] =
      BgetResult.panicNoBuffer ∧
    InodeCache.get 1 9 [{ dev := 1, inum := 2, refs := 3 }] =
      IGetResult.panicNotEnough :=
  c2_exhaustion_fatal _ _ 2 7 1 9 (by decide) (by decide) (by decide)
    (by decide)

/-! ## C4 -/

theorem iwriteTail_rem_zero (copyOk : Nat → Bool)
    (h : ∀ t, copyOk t = true) :
    ∀ count blockBase iter, (iwriteTail copyOk blockBase count iter).1 = 0 := by
  intro count
  induction count using Nat.strong_induction_on with
  | _ count ih =>
    intro blockBase iter
    rw [iwriteTail]
    split
    · next hc =>
      rw [h iter]
      simp only [if_true]
      exact ih (count - min BSIZE count)
        (by simp only [BSIZE]; omega) (blockBase + 1) (iter + 1)
    · rfl

theorem iwriteLoop_rem_zero (copyOk : Nat → Bool)
    (h : ∀ t, copyOk t = true) (offset count : Nat) :
    (iwriteLoop copyOk offset count).1 = 0 := by
  unfold iwriteLoop
  split
  · rw [h 0]
    simp only [if_true]
    exact iwriteTail_rem_zero copyOk h _ _ _
  · rfl

/-- C4: a write ending exactly at MAX_FILE_SIZE succeeds in full (given the
offset is within the current size and the user copies succeed), and a write
whose end would exceed MAX_FILE_SIZE or whose offset lies beyond the current
file size fails with an error before any data block is written or the inode
size is changed. -/
theorem c4_try_iwrite (size offset count : Nat) (copyOk : Nat → Bool) :
    (size ≤ MAX_FILE_SIZE → offset ≤ size →
      offset + count = MAX_FILE_SIZE → (∀ t, copyOk t = true) →
      (tryIwrite size offset count copyOk).1 =
        some (MAX_FILE_SIZE, count)) ∧
    (offset > size ∨ offset + count > MAX_FILE_SIZE →
      tryIwrite size offset count copyOk = (none, [])) := by
  constructor
  · intro hsz hos hend hcopy
    have hnotover : ¬ U32 ≤ offset + count := by
      rw [hend]
      simp only [U32, MAX_FILE_SIZE, NDIRECT, NINDIRECT, BSIZE]
      omega
    have hnotbig : ¬ offset + count > MAX_FILE_SIZE := by omega
    have hnooff : ¬ offset > size := by omega
    unfold tryIwrite
    rw [if_neg hnooff, if_neg hnotover, if_neg hnotbig]
    simp only [iwriteLoop_rem_zero copyOk hcopy offset count, Nat.sub_zero]
    have h1 : (if offset + count > size then offset + count else size) =
        MAX_FILE_SIZE := by
      by_cases hgt : offset + count > size
      · rw [if_pos hgt, hend]
      · rw [if_neg hgt]
        omega
    rw [h1, hend]
    have h2 : MAX_FILE_SIZE - offset = count := by omega
    rw [h2]
  · intro hbad
    unfold tryIwrite
    by_cases hoff : offset > size
    · rw [if_pos hoff]
    · rw [if_neg hoff]
      have hbig : offset + count > MAX_FILE_SIZE := by
        rcases hbad with h | h
        · exact absurd h hoff
        · exact h
      by_cases hover : U32 ≤ offset + count
      · rw [if_pos hover]
      · rw [if_neg hover, if_pos hbig]

theorem c4_try_iwrite_witness :
    (tryIwrite 0 0 MAX_FILE_SIZE (fun _ => true)).1 =
      some (MAX_FILE_SIZE, MAX_FILE_SIZE) ∧
    tryIwrite 10 11 4 (fun _ => true) = (none, []) :=
  ⟨(c4_try_iwrite 0 0 MAX_FILE_SIZE (fun _ => true)).1
      (by omega) (by omega) (by omega) (fun _ => rfl),
    (c4_try_iwrite 10 11 4 (fun _ => true)).2 (Or.inl (by omega))⟩

/-! ## C6 -/

theorem pipeFull_iff (C : Nat) (s : PipeSt) (hC : 0 < C) (hCU : C < U32)
    (hr : s.readCnt < U32) (hw : s.writeCnt < U32) :
    s.writeCnt = (s.readCnt + C) % U32 ↔ pipeQueued s = C := by
  simp only [pipeQueued, U32] at *
  omega

/-- C6: each pipe-write loop iteration appends at most one byte, keeping the
queued byte count `write_cnt - read_cnt` within the capacity `C`: a full
pipe (`write_cnt == read_cnt + C`) makes the writer wake readers and sleep
on `&write_cnt`; a closed read side or a killed caller yields an error; an
append stores the byte at `write_cnt % C` and advances `write_cnt` so the
queue grows by exactly one (never past `C`); and from a full pipe the next
write blocks while consuming one byte lets exactly one more byte through,
leaving the pipe full again. -/
theorem c6_pipe_write (C : Nat) (s : PipeSt) (killed : Bool)
    (remaining : Nat) (copyOk : Bool) (byte : Nat)
    (hC : 0 < C) (hCU : C < U32)
    (hr : s.readCnt < U32) (hw : s.writeCnt < U32)
    (hq : pipeQueued s ≤ C) :
    (0 < remaining → (s.readOpen = false ∨ killed = true) →
      pipeWriteStep C s killed remaining copyOk byte =
        PipeWriteStep.errClosed) ∧
    (0 < remaining → s.readOpen = true → killed = false →
      (pipeWriteStep C s killed remaining copyOk byte =
          PipeWriteStep.sleepFull ↔ pipeQueued s = C)) ∧
    (∀ s2, pipeWriteStep C s killed remaining copyOk byte =
        PipeWriteStep.wrote s2 →
      s2.writeCnt = (s.writeCnt + 1) % U32 ∧
      s2.data = Function.update s.data (s.writeCnt % C) byte ∧
      s2.readCnt = s.readCnt ∧ s2.readOpen = s.readOpen ∧
      s2.writeOpen = s.writeOpen ∧
      pipeQueued s2 = pipeQueued s + 1 ∧ pipeQueued s2 ≤ C) ∧
    (0 < remaining → s.readOpen = true → killed = false → copyOk = true →
      pipeQueued s = C →
      pipeWriteStep C s killed remaining copyOk byte =
        PipeWriteStep.sleepFull ∧
      ∃ s2, pipeWriteStep C (pipeReadOne s) killed remaining copyOk byte =
          PipeWriteStep.wrote s2 ∧ pipeQueued s2 = C) := by
  have hrem0 : ∀ r : Nat, 0 < r → ¬ r = 0 := fun r h => by omega
  refine ⟨?_, ?_, ?_, ?_⟩
  · intro hrem hclosed
    unfold pipeWriteStep
    rw [if_neg (hrem0 remaining hrem), if_pos hclosed]
  · intro hrem hopen hkill
    have hclosed : ¬ (s.readOpen = false ∨ killed = true) := by
      simp [hopen, hkill]
    unfold pipeWriteStep
    rw [if_neg (hrem0 remaining hrem), if_neg hclosed]
    constructor
    · intro hstep
      by_cases hfull : s.writeCnt = (s.readCnt + C) % U32
      · exact (pipeFull_iff C s hC hCU hr hw).mp hfull
      · rw [if_neg hfull] at hstep
        by_cases hcp : copyOk = false
        · rw [if_pos hcp] at hstep
          exact PipeWriteStep.noConfusion hstep
        · rw [if_neg hcp] at hstep
          exact PipeWriteStep.noConfusion hstep
    · intro hfull
      rw [if_pos ((pipeFull_iff C s hC hCU hr hw).mpr hfull)]
  · intro s2 hstep
    unfold pipeWriteStep at hstep
    by_cases h0 : remaining = 0
    · rw [if_pos h0] at hstep
      exact PipeWriteStep.noConfusion hstep
    rw [if_neg h0] at hstep
    by_cases hclosed : s.readOpen = false ∨ killed = true
    · rw [if_pos hclosed] at hstep
      exact PipeWriteStep.noConfusion hstep
    rw [if_neg hclosed] at hstep
    by_cases hfull : s.writeCnt = (s.readCnt + C) % U32
    · rw [if_pos hfull] at hstep
      exact PipeWriteStep.noConfusion hstep
    rw [if_neg hfull] at hstep
    by_cases hcp : copyOk = false
    · rw [if_pos hcp] at hstep
      exact PipeWriteStep.noConfusion hstep
    rw [if_neg hcp] at hstep
    have hs2 := (PipeWriteStep.wrote.injEq _ _).mp hstep.symm
    subst hs2
    refine ⟨rfl, rfl, rfl, rfl, rfl, ?_, ?_⟩
    · have hnf : ¬ pipeQueued s = C := by
        intro hcq
        exact hfull ((pipeFull_iff C s hC hCU hr hw).mpr hcq)
      simp only [pipeQueued, U32] at *
      omega
    · have hnf : ¬ pipeQueued s = C := by
        intro hcq
        exact hfull ((pipeFull_iff C s hC hCU hr hw).mpr hcq)
      simp only [pipeQueued, U32] at *
      omega
  · intro hrem hopen hkill hcp hfullq
    have hclosed : ¬ (s.readOpen = false ∨ killed = true) := by
      simp [hopen, hkill]
    constructor
    · unfold pipeWriteStep
      rw [if_neg (hrem0 remaining hrem), if_neg hclosed,
        if_pos ((pipeFull_iff C s hC hCU hr hw).mpr hfullq)]
    · have hnotfull :
          ¬ (pipeReadOne s).writeCnt =
            ((pipeReadOne s).readCnt + C) % U32 := by
        simp only [pipeReadOne, pipeQueued, U32] at *
        omega
      refine ⟨{ pipeReadOne s with
          data := Function.update (pipeReadOne s).data
            ((pipeReadOne s).writeCnt % C) byte,
          writeCnt := ((pipeReadOne s).writeCnt + 1) % U32 }, ?_, ?_⟩
      · unfold pipeWriteStep
        rw [if_neg (hrem0 remaining hrem)]
        have hclosed2 : ¬ ((pipeReadOne s).readOpen = false ∨
            killed = true) := by
          simp only [pipeReadOne]
          exact hclosed
        rw [if_neg hclosed2, if_neg hnotfull, if_neg (by simp [hcp])]
      · simp only [pipeReadOne, pipeQueued, U32] at *
        omega

theorem c6_pipe_write_witness :
    pipeWriteStep 4 ⟨true, true, 0, 4, fun _ => 0⟩ false 1 true 55 =
      PipeWriteStep.sleepFull ∧
    (∃ s2, pipeWriteStep 4 (pipeReadOne ⟨true, true, 0, 4, fun _ => 0⟩)
        false 1 true 55 = PipeWriteStep.wrote s2 ∧ pipeQueued s2 = 4) ∧
    pipeWriteStep 4 ⟨false, true, 0, 0, fun _ => 0⟩ true 1 true 55 =
      PipeWriteStep.errClosed := by
  have h := c6_pipe_write 4 ⟨true, true, 0, 4, fun _ => 0⟩ false 1 true 55
    (by omega) (by norm_num [U32]) (by norm_num [U32]) (by norm_num [U32])
    (by norm_num [pipeQueued, U32])
  have hfull := h.2.2.2 (by omega) rfl rfl rfl
    (by norm_num [pipeQueued, U32])
  refine ⟨hfull.1, hfull.2, ?_⟩
  have h2 := c6_pipe_write 4 ⟨false, true, 0, 0, fun _ => 0⟩ true 1 true 55
    (by omega) (by norm_num [U32]) (by norm_num [U32]) (by norm_num [U32])
    (by norm_num [pipeQueued, U32])
  exact h2.1 (by omega) (Or.inl rfl)

/-! ## C7 (corrected) -/

/-- C7 counterexample: with the console ring holding byte 97 then EOT and
`wi = 2`, a read of up to 5 bytes returns 1 with `[97]` copied, but leaves
the read index at 1 — the EOT is pushed back, not consumed, because a byte
had already been copied; the claim predicts a final read index of 2. -/
theorem c7_console_read_counterexample :
    consoleRead 4 (fun i => if i = 0 then 97 else if i = 1 then 4 else 0)
        false 2 5 (fun _ => true) 0 5 [] = CRes.done 1 [97] 1 ∧
    consoleRead 4 (fun i => if i = 0 then 97 else if i = 1 then 4 else 0)
        false 2 5 (fun _ => true) 0 5 [] ≠ CRes.done 1 [97] 2 := by
  constructor
  · decide
  · decide

/-- C7 (amended): console read fails with an error when the killed flag is
observed while the read index equals the write index; it stops early at a
newline, which is copied and included in the count; it stops at an EOT byte,
which is never copied and is consumed only when it is the first byte
delivered by this call — an EOT encountered after at least one copied byte
is pushed back (the read index is rewound to it); and the returned value
equals the number of bytes actually copied. -/
theorem c7_console_read (CB : Nat) (buf : Nat → Nat) (wi tot : Nat)
    (copyOk : Nat → Bool) :
    (∀ ri left copied, 0 < left → ri = wi →
      consoleRead CB buf true wi tot copyOk ri left copied = CRes.err) ∧
    (∀ (killed : Bool) ri, 0 < tot → ri ≠ wi → buf (ri % CB) = CTRL_EOT →
      consoleRead CB buf killed wi tot copyOk ri tot [] =
        CRes.done 0 [] ((ri + 1) % USIZE)) ∧
    (∀ (killed : Bool) ri left copied, 0 < left → left < tot → ri ≠ wi →
      ri + 1 < USIZE → buf (ri % CB) = CTRL_EOT →
      consoleRead CB buf killed wi tot copyOk ri left copied =
        CRes.done (tot - left) copied ri) ∧
    (∀ (killed : Bool) ri left copied, 0 < left → ri ≠ wi →
      buf (ri % CB) = CTRL_LF → copyOk copied.length = true →
      consoleRead CB buf killed wi tot copyOk ri left copied =
        CRes.done (tot - (left - 1)) (copied ++ [CTRL_LF])
          ((ri + 1) % USIZE)) ∧
    (∀ (killed : Bool) ri left copied r l fi, left ≤ tot →
      tot - left = copied.length →
      consoleRead CB buf killed wi tot copyOk ri left copied =
        CRes.done r l fi →
      r = l.length) := by
  refine ⟨?_, ?_, ?_, ?_, ?_⟩
  · intro ri left copied hleft hri
    obtain ⟨k, rfl⟩ := Nat.exists_eq_succ_of_ne_zero (Nat.pos_iff_ne_zero.mp hleft)
    simp [consoleRead, hri]
  · intro killed ri htot hri heot
    obtain ⟨k, rfl⟩ := Nat.exists_eq_succ_of_ne_zero (Nat.pos_iff_ne_zero.mp htot)
    simp only [consoleRead, if_neg hri, heot, if_pos rfl]
    rw [if_neg (by omega : ¬ k + 1 < k + 1)]
    simp
  · intro killed ri left copied hleft hlt hri hriU heot
    obtain ⟨k, rfl⟩ := Nat.exists_eq_succ_of_ne_zero (Nat.pos_iff_ne_zero.mp hleft)
    simp only [consoleRead, if_neg hri, heot, if_pos rfl, if_pos hlt]
    have h1 : (ri + 1) % USIZE = ri + 1 := Nat.mod_eq_of_lt hriU
    rw [h1]
    have h2 : (ri + 1 + USIZE - 1) % USIZE = ri := by
      have hri2 : ri < USIZE := by omega
      have : ri + 1 + USIZE - 1 = ri + USIZE := by omega
      rw [this, Nat.add_mod_right, Nat.mod_eq_of_lt hri2]
    rw [h2]
    simp
  · intro killed ri left copied hleft hri hlf hcp
    obtain ⟨k, rfl⟩ := Nat.exists_eq_succ_of_ne_zero (Nat.pos_iff_ne_zero.mp hleft)
    have hne : buf (ri % CB) ≠ CTRL_EOT := by
      rw [hlf]
      decide
    simp only [consoleRead, if_neg hri, if_neg hne, hcp]
    simp [hlf]
  · intro killed ri left
    induction left generalizing ri with
    | zero =>
      intro copied r l fi _ hlen hrun
      simp only [consoleRead] at hrun
      rcases hrun with ⟨rfl, rfl, rfl⟩
      omega
    | succ k ih =>
      intro copied r l fi hle hlen hrun
      simp only [consoleRead] at hrun
      by_cases hri : ri = wi
      · rw [if_pos hri] at hrun
        by_cases hk : killed
        · simp [hk] at hrun
        · simp [hk] at hrun
      · rw [if_neg hri] at hrun
        by_cases heot : buf (ri % CB) = CTRL_EOT
        · rw [if_pos heot] at hrun
          by_cases hlt : k + 1 < tot
          · rw [if_pos hlt] at hrun
            rcases hrun with ⟨rfl, rfl, rfl⟩
            omega
          · rw [if_neg hlt] at hrun
            rcases hrun with ⟨rfl, rfl, rfl⟩
            omega
        · rw [if_neg heot] at hrun
          by_cases hcp : copyOk copied.length = false
          · rw [if_pos hcp] at hrun
            rcases hrun with ⟨rfl, rfl, rfl⟩
            omega
          · rw [if_neg hcp] at hrun
            by_cases hlf : buf (ri % CB) = CTRL_LF
            · rw [if_pos hlf] at hrun
              rcases hrun with ⟨rfl, rfl, rfl⟩
              simp only [List.length_append, List.length_cons,
                List.length_nil]
              omega
            · rw [if_neg hlf] at hrun
              exact ih _ _ _ _ _ (by omega)
                (by simp only [List.length_append, List.length_cons,
                      List.length_nil]; omega) hrun

theorem c7_console_read_witness :
    consoleRead 8 (fun _ => 0) true 3 4 (fun _ => true) 3 4 [] =
      CRes.err ∧
    consoleRead 8 (fun _ => CTRL_EOT) false 3 4 (fun _ => true) 0 4 [] =
      CRes.done 0 [] 1 ∧
    consoleRead 8 (fun _ => CTRL_LF) false 3 4 (fun _ => true) 0 4 [] =
      CRes.done 1 [CTRL_LF] 1 := by
  have h := c7_console_read 8 (fun _ => 0) 3 4 (fun _ => true)
  have h2 := c7_console_read 8 (fun _ => CTRL_EOT) 3 4 (fun _ => true)
  have h3 := c7_console_read 8 (fun _ => CTRL_LF) 3 4 (fun _ => true)
  refine ⟨h.1 3 4 [] (by omega) rfl, ?_, ?_⟩
  · have := h2.2.1 false 0 (by omega) (by omega) rfl
    simpa using this
  · have := h3.2.2.2.1 false 0 4 [] (by omega) (by omega) rfl rfl
    simpa using this

/-! ## C8 -/

/-- C8: a request built by `rw` is a chain of exactly three descriptors —
the header (chained to the data descriptor) whose sector is
`blockno * (BSIZE / 512)`, the data buffer marked device-writable for reads
and not for writes, and a one-byte status descriptor initialised to the
0xff sentinel — with the buffer address registered as the wake channel and
idx0 published in the avail ring; and the interrupt handler panics whenever
a completed request's status byte is non-zero, and otherwise wakes the
sleeper on the registered buffer channel, clearing the in-flight flag and
advancing the used index. -/
theorem c8_virtio (d : Disk) (idx0 idx1 idx2 blockno : Nat)
    (writing : Bool) (bufAddr hdrAddr statusAddr : Nat)
    (h01 : idx0 ≠ idx1) (h02 : idx0 ≠ idx2) (h12 : idx1 ≠ idx2) :
    (∀ d2, d2 = diskRw d idx0 idx1 idx2 blockno writing bufAddr hdrAddr
        statusAddr →
      (d2.ops idx0).sector = blockno * (BSIZE / 512) ∧
      (d2.ops idx0).type_ =
        (if writing then VIRTIO_BLK_T_OUT else VIRTIO_BLK_T_IN) ∧
      (d2.desc idx0).addr = hdrAddr ∧
      (d2.desc idx0).flags = VRING_DESC_F_NEXT ∧
      (d2.desc idx0).next = idx1 ∧
      (d2.desc idx1).addr = bufAddr ∧
      (d2.desc idx1).len = BSIZE ∧
      (d2.desc idx1).flags =
        (if writing then VRING_DESC_F_NEXT
         else VRING_DESC_F_WRITE + VRING_DESC_F_NEXT) ∧
      (d2.desc idx1).next = idx2 ∧
      (d2.desc idx2).addr = statusAddr ∧
      (d2.desc idx2).len = 1 ∧
      (d2.desc idx2).flags = VRING_DESC_F_WRITE ∧
      (d2.info idx0).status = 0xff ∧
      (d2.info idx0).bufChannel = some bufAddr ∧
      (d2.info idx0).disk = true ∧
      d2.availRing (d.availIdx % NUM) = idx0 ∧
      d2.availIdx = (d.availIdx + 1) % U16) ∧
    (d.usedIdx ≠ d.usedIdxDevice →
      ((d.info (d.usedRing (d.usedIdx % NUM))).status ≠ 0 →
        diskIntrStep d = IntrStep.panicStatus) ∧
      (∀ ch, (d.info (d.usedRing (d.usedIdx % NUM))).status = 0 →
        (d.info (d.usedRing (d.usedIdx % NUM))).bufChannel = some ch →
        ∃ d3, diskIntrStep d = IntrStep.wake d3 ch ∧
          (d3.info (d.usedRing (d.usedIdx % NUM))).disk = false ∧
          d3.usedIdx = (d.usedIdx + 1) % U16)) := by
  constructor
  · intro d2 hd2
    subst hd2
    unfold diskRw
    simp only [Function.update_same, Function.update_noteq h01.symm,
      Function.update_noteq h02.symm, Function.update_noteq h12.symm,
      Function.update_noteq h01, Function.update_noteq h02,
      Function.update_noteq h12]
    cases writing <;> simp <;> decide
  · intro hne
    constructor
    · intro hst
      unfold diskIntrStep
      rw [if_neg hne, if_pos hst]
    · intro ch hst hch
      unfold diskIntrStep
      rw [if_neg hne, if_neg (by rw [hst]; exact fun h => h rfl), hch]
      exact ⟨_, rfl, by simp [Function.update_same], rfl⟩

theorem c8_virtio_witness :
    (∀ d2, d2 = diskRw
        ⟨fun _ => ⟨0, 0, 0, 0⟩, fun _ => 0, 0, fun _ => 0, 0, 0,
          fun _ => ⟨none, 0, false⟩, fun _ => ⟨0, 0, 0⟩⟩
        0 1 2 5 false 100 200 300 →
      (d2.ops 0).sector = 5 * (BSIZE / 512) ∧
      (d2.desc 1).flags = VRING_DESC_F_WRITE + VRING_DESC_F_NEXT ∧
      (d2.info 0).status = 0xff) ∧
    (∃ d3, diskIntrStep
        ⟨fun _ => ⟨0, 0, 0, 0⟩, fun _ => 0, 0, fun _ => 0, 1, 0,
          fun _ => ⟨some 100, 0, true⟩, fun _ => ⟨0, 0, 0⟩⟩ =
        IntrStep.wake d3 100) := by
  have h := c8_virtio
    ⟨fun _ => ⟨0, 0, 0, 0⟩, fun _ => 0, 0, fun _ => 0, 0, 0,
      fun _ => ⟨none, 0, false⟩, fun _ => ⟨0, 0, 0⟩⟩
    0 1 2 5 false 100 200 300 (by omega) (by omega) (by omega)
  have h2 := c8_virtio
    ⟨fun _ => ⟨0, 0, 0, 0⟩, fun _ => 0, 0, fun _ => 0, 1, 0,
      fun _ => ⟨some 100, 0, true⟩, fun _ => ⟨0, 0, 0⟩⟩
    0 1 2 5 false 100 200 300 (by omega) (by omega) (by omega)
  constructor
  · intro d2 hd2
    have hc := h.1 d2 hd2
    refine ⟨hc.1, ?_, hc.2.2.2.2.2.2.2.2.2.2.2.2.1⟩
    have hf := hc.2.2.2.2.2.2.2.1
    simpa using hf
  · have hne : (0 : Nat) ≠ 1 := by omega
    have hw := (h2.2 hne).2 100 rfl rfl
    exact ⟨hw.choose, hw.choose_spec.1⟩

/-! ## C5: decomposition lemmas for the cache operations -/

/-- The Bool form of the `(dev, blockno)` match used by `find_cached`. -/
def bmatch (dev blockno : Nat) (b : BufCtrl) : Bool :=
  b.dev == dev && b.blockno == blockno

theorem bmatch_iff (dev blockno : Nat) (b : BufCtrl) :
    bmatch dev blockno b = true ↔ b.dev = dev ∧ b.blockno = blockno := by
  simp [bmatch]

theorem pairEntries_eq_filter (dev blockno : Nat) (s : List BufCtrl) :
    pairEntries dev blockno s = s.filter (bmatch dev blockno) := rfl

theorem findCached_eq_some_decomp (dev blockno : Nat) :
    ∀ (s s2 : List BufCtrl), findCached dev blockno s = some s2 →
    ∃ pre b post, s = pre ++ b :: post ∧
      (∀ x ∈ pre, ¬(x.dev = dev ∧ x.blockno = blockno)) ∧
      (b.dev = dev ∧ b.blockno = blockno) ∧
      s2 = pre ++ { b with refcnt := b.refcnt + 1 } :: post := by
  intro s
  induction s with
  | nil => intro s2 h; exact Option.noConfusion h
  | cons b rest ih =>
    intro s2 h
    by_cases hb : b.dev = dev ∧ b.blockno = blockno
    · rw [findCached, if_pos hb] at h
      exact ⟨[], b, rest, rfl, by simp, hb, (Option.some_inj.mp h).symm⟩
    · rw [findCached, if_neg hb] at h
      cases hr : findCached dev blockno rest with
      | none => rw [hr] at h; exact Option.noConfusion h
      | some r2 =>
        rw [hr] at h
        obtain ⟨pre, m, post, hs, hpre, hm, hr2⟩ := ih r2 hr
        refine ⟨b :: pre, m, post, by simp [hs], ?_, hm, ?_⟩
        · intro x hx
          rcases List.mem_cons.mp hx with rfl | hx2
          · exact hb
          · exact hpre x hx2
        · have : s2 = b :: r2 := by
            simpa using h.symm
          rw [this, hr2]
          rfl

theorem recycle_eq_some_decomp (dev blockno : Nat) :
    ∀ (s s2 : List BufCtrl), recycle dev blockno s = some s2 →
    ∃ pre b post, s = pre ++ b :: post ∧ b.refcnt = 0 ∧
      s2 = pre ++ ({ dev := dev, blockno := blockno, refcnt := 1 } :
        BufCtrl) :: post := by
  intro s
  induction s with
  | nil => intro s2 h; exact Option.noConfusion h
  | cons b rest ih =>
    intro s2 h
    rw [recycle] at h
    cases hr : recycle dev blockno rest with
    | some r2 =>
      rw [hr] at h
      obtain ⟨pre, m, post, hs, hm, hr2⟩ := ih r2 hr
      have hbs2 : s2 = b :: r2 := by simpa using h.symm
      exact ⟨b :: pre, m, post, by simp [hs], hm, by rw [hbs2, hr2]; rfl⟩
    | none =>
      rw [hr] at h
      by_cases hb : b.refcnt = 0
      · rw [if_pos hb] at h
        exact ⟨[], b, rest, rfl, hb, (Option.some_inj.mp h).symm⟩
      · rw [if_neg hb] at h
        exact Option.noConfusion h

theorem get?_eq_some_decomp {α : Type} :
    ∀ (s : List α) (i : Nat) (b : α), s.get? i = some b →
    ∃ pre post, s = pre ++ b :: post ∧ pre.length = i := by
  intro s
  induction s with
  | nil => intro i b h; simp at h
  | cons x rest ih =>
    intro i b h
    cases i with
    | zero =>
      simp only [List.get?] at h
      exact ⟨[], rest, by rw [Option.some_inj.mp h]; rfl, rfl⟩
    | succ j =>
      simp only [List.get?] at h
      obtain ⟨pre, post, hs, hl⟩ := ih j b h
      exact ⟨x :: pre, post, by rw [hs]; rfl, by simp [hl]⟩

theorem eraseIdx_append_cons {α : Type} :
    ∀ (pre : List α) (b : α) (post : List α),
      (pre ++ b :: post).eraseIdx pre.length = pre ++ post := by
  intro pre
  induction pre with
  | nil => intro b post; rfl
  | cons x rest ih =>
    intro b post
    simp only [List.cons_append, List.length_cons, List.eraseIdx,
      List.append_eq]
    rw [ih b post]

theorem set_append_cons {α : Type} :
    ∀ (pre : List α) (b c : α) (post : List α),
      (pre ++ b :: post).set pre.length c = pre ++ c :: post := by
  intro pre
  induction pre with
  | nil => intro b c post; rfl
  | cons x rest ih =>
    intro b c post
    simp only [List.cons_append, List.length_cons, List.set,
      List.append_eq]
    rw [ih b c post]

/-! ## C5: the inductive invariant and its preservation -/

/-- All elements of a list's tail have refcount zero. -/
def tailZero (l : List BufCtrl) : Prop := ∀ x ∈ l.tail, x.refcnt = 0

theorem tailZero_nil : tailZero [] := by intro x hx; simp at hx

theorem tailZero_dropMid (xs : List BufCtrl) (b : BufCtrl)
    (ys : List BufCtrl) (h : tailZero (xs ++ b :: ys)) :
    tailZero (xs ++ ys) := by
  cases xs with
  | nil =>
    intro x hx
    exact h x (List.mem_of_mem_tail hx)
  | cons x0 xs2 =>
    intro x hx
    apply h
    simp only [List.cons_append, List.tail_cons] at hx ⊢
    rcases List.mem_append.mp hx with h1 | h2
    · exact List.mem_append.mpr (Or.inl h1)
    · exact List.mem_append.mpr (Or.inr (List.mem_cons_of_mem b h2))

theorem liveDupFree_iff (s : List BufCtrl) :
    liveDupFree s ↔ ∀ dev blockno, tailZero (pairEntries dev blockno s) := by
  rfl

theorem liveDupFree_preserved_hit (s s2 : List BufCtrl) (dev blockno : Nat)
    (hinv : liveDupFree s) (h : findCached dev blockno s = some s2) :
    liveDupFree s2 := by
  obtain ⟨pre, b, post, hs, hpre, hb, hs2⟩ :=
    findCached_eq_some_decomp dev blockno s s2 h
  intro d k
  have hfpre0 : pre.filter (bmatch dev blockno) = [] := by
    rw [List.filter_eq_nil_iff]
    intro x hx
    rw [bmatch_iff]
    exact hpre x hx
  by_cases hbm : bmatch d k b = true
  · -- the pair of the bumped entry
    have hdk : d = dev ∧ k = blockno := by
      rcases (bmatch_iff d k b).mp hbm with ⟨h1, h2⟩
      exact ⟨by rw [← h1, hb.1], by rw [← h2, hb.2]⟩
    obtain ⟨rfl, rfl⟩ := hdk
    have hbm2 : bmatch d k { b with refcnt := b.refcnt + 1 } = true := hbm
    rw [pairEntries_eq_filter, hs2, List.filter_append, hfpre0,
      List.nil_append, List.filter_cons_of_pos hbm2]
    have hold := hinv d k
    rw [pairEntries_eq_filter, hs, List.filter_append, hfpre0,
      List.nil_append, List.filter_cons_of_pos hbm] at hold
    intro x hx
    exact hold x hx
  · -- any other pair: the filtered list is unchanged
    have hbm2 : ¬ bmatch d k { b with refcnt := b.refcnt + 1 } = true := hbm
    have hsame : pairEntries d k s2 = pairEntries d k s := by
      rw [pairEntries_eq_filter, pairEntries_eq_filter, hs, hs2,
        List.filter_append, List.filter_append,
        List.filter_cons_of_neg hbm, List.filter_cons_of_neg hbm2]
    rw [hsame]
    exact hinv d k

theorem liveDupFree_preserved_fresh (s s2 : List BufCtrl)
    (dev blockno : Nat) (hinv : liveDupFree s)
    (hnone : findCached dev blockno s = none)
    (h : recycle dev blockno s = some s2) :
    liveDupFree s2 := by
  obtain ⟨pre, b, post, hs, hb0, hs2⟩ :=
    recycle_eq_some_decomp dev blockno s s2 h
  have hnomatch : ∀ x ∈ s, ¬(x.dev = dev ∧ x.blockno = blockno) :=
    (findCached_eq_none_iff dev blockno s).mp hnone
  intro d k
  by_cases hdk : d = dev ∧ k = blockno
  · obtain ⟨rfl, rfl⟩ := hdk
    -- no old entry matches, the new one is alone
    have hf : ∀ x ∈ s, ¬ bmatch d k x = true := by
      intro x hx hbm
      exact hnomatch x hx ((bmatch_iff d k x).mp hbm)
    have hfpre : pre.filter (bmatch d k) = [] := by
      rw [List.filter_eq_nil_iff]
      intro x hx
      exact hf x (by rw [hs]; exact List.mem_append.mpr (Or.inl hx))
    have hfpost : post.filter (bmatch d k) = [] := by
      rw [List.filter_eq_nil_iff]
      intro x hx
      exact hf x
        (by rw [hs]
            exact List.mem_append.mpr (Or.inr (List.mem_cons_of_mem b hx)))
    have hnew : bmatch d k
        ({ dev := d, blockno := k, refcnt := 1 } : BufCtrl) = true := by
      simp [bmatch]
    rw [pairEntries_eq_filter, hs2, List.filter_append, hfpre,
      List.nil_append, List.filter_cons_of_pos hnew, hfpost]
    intro x hx
    simp at hx
  · -- other pairs: at most the zero-refcount entry b disappears
    have hnb : ¬ bmatch d k
        ({ dev := dev, blockno := blockno, refcnt := 1 } : BufCtrl) =
          true := by
      rw [bmatch_iff]
      intro ⟨h1, h2⟩
      exact hdk ⟨h1.symm, h2.symm⟩
    have hold := hinv d k
    rw [pairEntries_eq_filter, hs, List.filter_append] at hold
    rw [pairEntries_eq_filter, hs2, List.filter_append,
      List.filter_cons_of_neg hnb]
    by_cases hbm : bmatch d k b = true
    · rw [List.filter_cons_of_pos hbm] at hold
      have hz : b.refcnt = 0 := hb0
      intro x hx
      exact tailZero_dropMid (pre.filter (bmatch d k)) b
        (post.filter (bmatch d k)) hold x hx
    · rw [List.filter_cons_of_neg hbm] at hold
      exact hold

theorem liveDupFree_preserved_release (s : List BufCtrl) (i : Nat)
    (b : BufCtrl) (hinv : liveDupFree s) (hget : s.get? i = some b)
    (hpos : 0 < b.refcnt) :
    liveDupFree (moveIfNoRef s i) := by
  obtain ⟨pre, post, hs, hlen⟩ := get?_eq_some_decomp s i b hget
  -- the positive entry is the head of its own pair list
  have hhead : ∀ d k, bmatch d k b = true →
      pre.filter (bmatch d k) = [] ∧
      tailZero (b :: post.filter (bmatch d k)) ∧
      pairEntries d k s = b :: post.filter (bmatch d k) := by
    intro d k hbm
    have hold := hinv d k
    rw [pairEntries_eq_filter, hs, List.filter_append,
      List.filter_cons_of_pos hbm] at hold
    have hfpre : pre.filter (bmatch d k) = [] := by
      cases hf : pre.filter (bmatch d k) with
      | nil => rfl
      | cons y ys =>
        have hbmem : b ∈ (y :: ys ++ b :: post.filter (bmatch d k)).tail := by
          simp
        rw [hf] at hold
        have := hold b hbmem
        omega
    refine ⟨hfpre, ?_, ?_⟩
    · rw [hfpre, List.nil_append] at hold
      exact hold
    · rw [pairEntries_eq_filter, hs, List.filter_append, hfpre,
        List.nil_append, List.filter_cons_of_pos hbm]
  have hrw : moveIfNoRef s i =
      (if ({ b with refcnt := b.refcnt - 1 } : BufCtrl).refcnt = 0 then
        ({ b with refcnt := b.refcnt - 1 } : BufCtrl) :: s.eraseIdx i
      else s.set i { b with refcnt := b.refcnt - 1 }) := by
    unfold moveIfNoRef
    rw [hget]
  rw [hrw]
  by_cases hz : ({ b with refcnt := b.refcnt - 1 } : BufCtrl).refcnt = 0
  · rw [if_pos hz]
    rw [hs, ← hlen, eraseIdx_append_cons pre b post]
    intro d k
    by_cases hbm : bmatch d k b = true
    · obtain ⟨hfpre, htz, _⟩ := hhead d k hbm
      have hbm2 : bmatch d k { b with refcnt := b.refcnt - 1 } = true := hbm
      rw [pairEntries_eq_filter, List.filter_cons_of_pos hbm2,
        List.filter_append, hfpre, List.nil_append]
      intro x hx
      exact htz x hx
    · have hbm2 : ¬ bmatch d k { b with refcnt := b.refcnt - 1 } = true :=
        hbm
      have hold := hinv d k
      rw [pairEntries_eq_filter, hs, List.filter_append,
        List.filter_cons_of_neg hbm] at hold
      rw [pairEntries_eq_filter, List.filter_cons_of_neg hbm2,
        List.filter_append]
      exact hold
  · rw [if_neg hz]
    rw [hs, ← hlen, set_append_cons pre b _ post]
    intro d k
    by_cases hbm : bmatch d k b = true
    · obtain ⟨hfpre, htz, _⟩ := hhead d k hbm
      have hbm2 : bmatch d k { b with refcnt := b.refcnt - 1 } = true := hbm
      rw [pairEntries_eq_filter, List.filter_append, hfpre,
        List.nil_append, List.filter_cons_of_pos hbm2]
      intro x hx
      exact htz x hx
    · have hbm2 : ¬ bmatch d k { b with refcnt := b.refcnt - 1 } = true :=
        hbm
      have hold := hinv d k
      rw [pairEntries_eq_filter, hs, List.filter_append,
        List.filter_cons_of_neg hbm] at hold
      rw [pairEntries_eq_filter, List.filter_append,
        List.filter_cons_of_neg hbm2]
      exact hold

theorem bcacheReach_liveDupFree {s : List BufCtrl}
    (h : BcacheReach s) : liveDupFree s := by
  induction h with
  | init n =>
    intro d k x hx
    have hx2 : x ∈ pairEntries d k
        (List.replicate n { dev := 0, blockno := 0, refcnt := 0 }) :=
      List.mem_of_mem_tail hx
    have hx3 := List.mem_of_mem_filter hx2
    have := List.eq_of_mem_replicate hx3
    rw [this]
  | get hreach hstep ih =>
    next s s2 dev blockno =>
    rcases hstep with hhit | hfresh
    · unfold bget at hhit
      cases hf : findCached dev blockno s with
      | some r =>
        rw [hf] at hhit
        have : r = s2 := by
          simpa using hhit
        rw [← this]
        exact liveDupFree_preserved_hit s r dev blockno ih hf
      | none =>
        rw [hf] at hhit
        cases hr : recycle dev blockno s with
        | some r => rw [hr] at hhit; simp at hhit
        | none => rw [hr] at hhit; simp at hhit
    · unfold bget at hfresh
      cases hf : findCached dev blockno s with
      | some r => rw [hf] at hfresh; simp at hfresh
      | none =>
        rw [hf] at hfresh
        cases hr : recycle dev blockno s with
        | some r =>
          rw [hr] at hfresh
          have : r = s2 := by simpa using hfresh
          rw [← this]
          exact liveDupFree_preserved_fresh s r dev blockno ih hf hr
        | none => rw [hr] at hfresh; simp at hfresh
  | release hreach hget hpos ih =>
    next s i b =>
    exact liveDupFree_preserved_release s i b ih hget hpos

/-- C5: in every cache state reachable by `bget`/`bread`/release operations
from the boot state, at most one buffer slot simultaneously holds a given
`(device, block number)` pair and a positive reference count. -/
theorem c5_unique_live (s : List BufCtrl) (h : BcacheReach s)
    (dev blockno : Nat) :
    (pairEntries dev blockno s).countP (fun b => decide (0 < b.refcnt)) ≤
      1 := by
  have hinv := bcacheReach_liveDupFree h dev blockno
  cases hl : pairEntries dev blockno s with
  | nil => simp
  | cons x xs =>
    rw [hl] at hinv
    have hz : xs.countP (fun b => decide (0 < b.refcnt)) = 0 := by
      rw [List.countP_eq_zero]
      intro a ha
      have := hinv a (by simpa using ha)
      simpa using (by omega : ¬ 0 < a.refcnt)
    rw [List.countP_cons, hz]
    by_cases hx : 0 < x.refcnt <;> simp [hx]

theorem c5_unique_live_witness :
    (pairEntries 0 0 [{ dev := 0, blockno := 0, refcnt := 1 },
        { dev := 0, blockno := 0, refcnt := 0 }]).countP
      (fun b => decide (0 < b.refcnt)) ≤ 1 :=
  c5_unique_live _
    (@BcacheReach.get
      (List.replicate 2 { dev := 0, blockno := 0, refcnt := 0 })
      [{ dev := 0, blockno := 0, refcnt := 1 },
        { dev := 0, blockno := 0, refcnt := 0 }] 0 0
      (BcacheReach.init 2) (Or.inl (by decide))) 0 0

/-! ## C1: commit/recovery crash atomicity -/

theorem applyOps_append (d : LogDisk) (l1 l2 : List DOp) :
    applyOps d (l1 ++ l2) = applyOps (applyOps d l1) l2 :=
  List.foldl_append applyOp d l1 l2

theorem applyOps_wlog_frame (cache : Nat → Nat) :
    ∀ (l : List (Nat × Nat)) (d : LogDisk),
      (applyOps d (wlogOps cache l)).hdrLen = d.hdrLen ∧
      (applyOps d (wlogOps cache l)).hdrNos = d.hdrNos ∧
      (applyOps d (wlogOps cache l)).home = d.home := by
  intro l
  induction l with
  | nil => intro d; exact ⟨rfl, rfl, rfl⟩
  | cons p rest ih =>
    intro d
    exact ih (applyOp d (DOp.wlog p.1 (cache p.2)))

theorem applyOps_wlog_log_other (cache : Nat → Nat) :
    ∀ (l : List (Nat × Nat)) (d : LogDisk) (i : Nat),
      i ∉ l.map Prod.fst →
      (applyOps d (wlogOps cache l)).log i = d.log i := by
  intro l
  induction l with
  | nil => intro d i _; rfl
  | cons p rest ih =>
    intro d i hi
    have hi1 : i ≠ p.1 := by
      intro habs
      exact hi (by rw [habs]; exact List.mem_cons_self _ _)
    have hi2 : i ∉ rest.map Prod.fst := by
      intro habs
      exact hi (List.mem_cons_of_mem _ habs)
    show (applyOps (applyOp d (DOp.wlog p.1 (cache p.2)))
        (wlogOps cache rest)).log i = d.log i
    rw [ih _ i hi2]
    simp only [applyOp]
    exact Function.update_noteq hi1 _ _

theorem applyOps_wlog_log (cache : Nat → Nat) :
    ∀ (l : List (Nat × Nat)) (d : LogDisk),
      (l.map Prod.fst).Nodup →
      ∀ p ∈ l, (applyOps d (wlogOps cache l)).log p.1 = cache p.2 := by
  intro l
  induction l with
  | nil => intro d _ p hp; simp at hp
  | cons q rest ih =>
    intro d hnd p hp
    have hnd2 : (rest.map Prod.fst).Nodup := (List.nodup_cons.mp hnd).2
    have hq : q.1 ∉ rest.map Prod.fst := (List.nodup_cons.mp hnd).1
    rcases List.mem_cons.mp hp with rfl | hp2
    · show (applyOps (applyOp d (DOp.wlog p.1 (cache p.2)))
          (wlogOps cache rest)).log p.1 = cache p.2
      rw [applyOps_wlog_log_other cache rest _ p.1 hq]
      simp [applyOp]
    · exact ih (applyOp d (DOp.wlog q.1 (cache q.2))) hnd2 p hp2

theorem applyOps_winstall_frame :
    ∀ (l : List (Nat × Nat)) (d : LogDisk),
      (applyOps d (winstallOps l)).hdrLen = d.hdrLen ∧
      (applyOps d (winstallOps l)).hdrNos = d.hdrNos ∧
      (applyOps d (winstallOps l)).log = d.log := by
  intro l
  induction l with
  | nil => intro d; exact ⟨rfl, rfl, rfl⟩
  | cons p rest ih =>
    intro d
    exact ih (applyOp d (DOp.winstall p.1 p.2))

theorem applyOps_winstall_home (cache : Nat → Nat) :
    ∀ (l : List (Nat × Nat)) (d : LogDisk),
      (∀ p ∈ l, d.log p.1 = cache p.2) →
      (∀ b ∈ l.map Prod.snd,
        (applyOps d (winstallOps l)).home b = cache b) ∧
      (∀ b, b ∉ l.map Prod.snd →
        (applyOps d (winstallOps l)).home b = d.home b) := by
  intro l
  induction l with
  | nil =>
    intro d _
    exact ⟨fun b hb => by simp at hb, fun b _ => rfl⟩
  | cons p rest ih =>
    intro d hlog
    have hd2 : ∀ q ∈ rest, (applyOp d (DOp.winstall p.1 p.2)).log q.1 =
        cache q.2 := by
      intro q hq
      exact hlog q (List.mem_cons_of_mem p hq)
    obtain ⟨ihin, ihout⟩ := ih (applyOp d (DOp.winstall p.1 p.2)) hd2
    constructor
    · intro b hb
      rw [List.map_cons] at hb
      rcases List.mem_cons.mp hb with hbp | hb2
      · by_cases hmem : b ∈ rest.map Prod.snd
        · exact ihin b hmem
        · show (applyOps (applyOp d (DOp.winstall p.1 p.2))
              (winstallOps rest)).home b = cache b
          rw [ihout b hmem]
          simp only [applyOp]
          rw [hbp, hlog p (List.mem_cons_self p rest)]
          exact Function.update_same _ _ _
      · exact ihin b hb2
    · intro b hb
      rw [List.map_cons] at hb
      have hb1 : b ≠ p.2 := by
        intro habs
        exact hb (by rw [habs]; exact List.mem_cons_self _ _)
      have hb2 : b ∉ rest.map Prod.snd := by
        intro habs
        exact hb (List.mem_cons_of_mem _ habs)
      show (applyOps (applyOp d (DOp.winstall p.1 p.2))
          (winstallOps rest)).home b = d.home b
      rw [ihout b hb2]
      simp only [applyOp]
      exact Function.update_noteq hb1 _ _

theorem recover_of_hdrLen_zero (d : LogDisk) (h : d.hdrLen = 0) :
    recover d = d := by
  unfold recover
  rw [h]
  simp

theorem recover_full (d : LogDisk) (nos : List Nat) (cache : Nat → Nat)
    (hlen : d.hdrLen = nos.length) (hpos : 0 < nos.length)
    (hnos : d.hdrNos = nos)
    (hlog : ∀ p ∈ nos.enum, d.log p.1 = cache p.2) :
    (recover d).hdrLen = 0 ∧ ∀ b ∈ nos, (recover d).home b = cache b := by
  unfold recover
  rw [if_pos (by rw [hlen]; exact hpos)]
  refine ⟨rfl, ?_⟩
  intro b hb
  show (applyOps d (winstallOps (d.hdrNos.take d.hdrLen).enum)).home b =
    cache b
  have htk : d.hdrNos.take d.hdrLen = nos := by
    rw [hnos, hlen]
    exact List.take_length nos
  rw [htk]
  exact (applyOps_winstall_home cache nos.enum d hlog).1 b
    (by rw [List.enum_map_snd]; exact hb)

/-- C1: the commit write sequence is all-or-nothing at commit granularity:
after applying any prefix of the writes issued by `commit` (log slots, then
the header — the commit point —, then the installs, then the header zeroing)
to a disk whose on-disk header count starts at zero, the on-disk header
count is either zero or the full transaction length, and running `recover`
on the crashed disk yields a disk whose header count is zero and whose
logged home blocks are either all unchanged (nothing replayed) or all carry
the committed cache contents (the whole transaction replayed). -/
theorem c1_log_atomicity (d0 : LogDisk) (nos : List Nat)
    (cache : Nat → Nat) (h0 : d0.hdrLen = 0) (k : Nat) :
    ((applyOps d0 ((commitOps nos cache).take k)).hdrLen = 0 ∨
      (applyOps d0 ((commitOps nos cache).take k)).hdrLen = nos.length) ∧
    (recover (applyOps d0 ((commitOps nos cache).take k))).hdrLen = 0 ∧
    ((∀ b ∈ nos,
        (recover (applyOps d0 ((commitOps nos cache).take k))).home b =
          d0.home b) ∨
      (∀ b ∈ nos,
        (recover (applyOps d0 ((commitOps nos cache).take k))).home b =
          cache b)) := by
  by_cases hnil : nos.length = 0
  · -- empty transaction: commit issues no writes at all
    have hco : commitOps nos cache = [] := by
      unfold commitOps
      rw [if_pos hnil]
    rw [hco]
    simp only [List.take_nil]
    have hd : applyOps d0 [] = d0 := rfl
    rw [hd, recover_of_hdrLen_zero d0 h0]
    exact ⟨Or.inl h0, h0, Or.inl (fun b _ => rfl)⟩
  · have hco : commitOps nos cache =
        wlogOps cache nos.enum ++
          ([DOp.whead nos.length nos] ++
            (winstallOps nos.enum ++ [DOp.wzero])) := by
      unfold commitOps
      rw [if_neg hnil]
      simp
    have hAlen : (wlogOps cache nos.enum).length = nos.length := by
      simp [wlogOps]
    have hClen : (winstallOps nos.enum).length = nos.length := by
      simp [winstallOps]
    set n := nos.length with hn
    rw [hco]
    by_cases hk : k ≤ n
    · -- crash during or right after write_log: nothing visible
      have htake : (wlogOps cache nos.enum ++
          ([DOp.whead n nos] ++
            (winstallOps nos.enum ++ [DOp.wzero]))).take k =
          wlogOps cache (nos.enum.take k) := by
        rw [List.take_append_eq_append_take]
        have h1 : k - (wlogOps cache nos.enum).length = 0 := by omega
        rw [h1]
        simp only [List.take_zero, List.append_nil]
        simp [wlogOps, List.map_take]
      rw [htake]
      obtain ⟨hh, _, hhome⟩ := applyOps_wlog_frame cache (nos.enum.take k) d0
      have hrec := recover_of_hdrLen_zero _ (by rw [hh]; exact h0)
      rw [hrec, hh, hhome, h0]
      exact ⟨Or.inl rfl, rfl, Or.inl (fun b _ => rfl)⟩
    · -- the header write is included: the commit point has passed
      push_neg at hk
      have htake1 : (wlogOps cache nos.enum ++
          ([DOp.whead n nos] ++
            (winstallOps nos.enum ++ [DOp.wzero]))).take k =
          wlogOps cache nos.enum ++
            (([DOp.whead n nos] ++
              (winstallOps nos.enum ++ [DOp.wzero])).take (k - n)) := by
        rw [List.take_append_eq_append_take,
          List.take_of_length_le (by rw [hAlen]; omega), hAlen]
      have htake2 : ([DOp.whead n nos] ++
          (winstallOps nos.enum ++ [DOp.wzero])).take (k - n) =
          DOp.whead n nos ::
            ((winstallOps nos.enum ++ [DOp.wzero]).take (k - n - 1)) := by
        rw [List.take_append_eq_append_take]
        have h1 : ([DOp.whead n nos] : List DOp).take (k - n) =
            [DOp.whead n nos] :=
          List.take_of_length_le (by simp; omega)
        rw [h1]
        simp
      rw [htake1, htake2, applyOps_append]
      set dA := applyOps d0 (wlogOps cache nos.enum) with hdA
      have hwh : applyOps dA
          (DOp.whead n nos ::
            ((winstallOps nos.enum ++ [DOp.wzero]).take (k - n - 1))) =
          applyOps { dA with hdrLen := n, hdrNos := nos }
            ((winstallOps nos.enum ++ [DOp.wzero]).take (k - n - 1)) := rfl
      rw [hwh]
      set dH : LogDisk := { dA with hdrLen := n, hdrNos := nos } with hdH
      have hHlog : ∀ p ∈ nos.enum, dH.log p.1 = cache p.2 := by
        intro p hp
        show dA.log p.1 = cache p.2
        exact applyOps_wlog_log cache nos.enum d0
          (by rw [List.enum_map_fst]; exact List.nodup_range _) p hp
      by_cases hk2 : k - n - 1 ≤ n
      · -- crash during install (or right after): header count is full
        have htake3 : (winstallOps nos.enum ++ [DOp.wzero]).take
            (k - n - 1) = winstallOps (nos.enum.take (k - n - 1)) := by
          rw [List.take_append_eq_append_take]
          have h1 : k - n - 1 - (winstallOps nos.enum).length = 0 := by
            omega
          rw [h1]
          simp only [List.take_zero, List.append_nil]
          simp [winstallOps, List.map_take]
        rw [htake3]
        obtain ⟨hh, hnos2, hlog2⟩ :=
          applyOps_winstall_frame (nos.enum.take (k - n - 1)) dH
        have hhn : (applyOps dH
            (winstallOps (nos.enum.take (k - n - 1)))).hdrLen = n := hh
        have hnosn : (applyOps dH
            (winstallOps (nos.enum.take (k - n - 1)))).hdrNos = nos := hnos2
        have hlogn : ∀ p ∈ nos.enum, (applyOps dH
            (winstallOps (nos.enum.take (k - n - 1)))).log p.1 =
            cache p.2 := by
          intro p hp
          rw [hlog2]
          exact hHlog p hp
        obtain ⟨hrl, hrh⟩ := recover_full _ nos cache hhn (by omega)
          hnosn hlogn
        exact ⟨Or.inr hhn, hrl, Or.inr hrh⟩
      · -- the whole commit ran: header zeroed, everything installed
        push_neg at hk2
        have htake4 : (winstallOps nos.enum ++ [DOp.wzero]).take
            (k - n - 1) = winstallOps nos.enum ++ [DOp.wzero] :=
          List.take_of_length_le (by simp [hClen]; omega)
        rw [htake4, applyOps_append]
        set dC := applyOps dH (winstallOps nos.enum) with hdC
        have hz : applyOps dC [DOp.wzero] = { dC with hdrLen := 0 } := rfl
        rw [hz]
        have hrec := recover_of_hdrLen_zero
          ({ dC with hdrLen := 0 }) rfl
        rw [hrec]
        refine ⟨Or.inl rfl, rfl, Or.inr ?_⟩
        intro b hb
        show dC.home b = cache b
        exact (applyOps_winstall_home cache nos.enum dH hHlog).1 b
          (by rw [List.enum_map_snd]; exact hb)

theorem c1_log_atomicity_witness :
    ((applyOps ⟨0, [], fun _ => 0, fun _ => 0⟩
        ((commitOps [5, 9] (fun b => b + 100)).take 3)).hdrLen = 0 ∨
      (applyOps ⟨0, [], fun _ => 0, fun _ => 0⟩
        ((commitOps [5, 9] (fun b => b + 100)).take 3)).hdrLen = 2) ∧
    (recover (applyOps ⟨0, [], fun _ => 0, fun _ => 0⟩
        ((commitOps [5, 9] (fun b => b + 100)).take 3))).hdrLen = 0 ∧
    ((∀ b ∈ [5, 9],
        (recover (applyOps ⟨0, [], fun _ => 0, fun _ => 0⟩
          ((commitOps [5, 9] (fun b => b + 100)).take 3))).home b =
          (fun _ => (0 : Nat)) b) ∨
      (∀ b ∈ [5, 9],
        (recover (applyOps ⟨0, [], fun _ => 0, fun _ => 0⟩
          ((commitOps [5, 9] (fun b => b + 100)).take 3))).home b =
          b + 100)) :=
  c1_log_atomicity ⟨0, [], fun _ => 0, fun _ => 0⟩ [5, 9]
    (fun b => b + 100) rfl 3

end RustOS
